import Mathlib

/-!
# Verification of the witi package-chain engine

Shallow embedding of the Go program `witi` ("Why Is This Installed?"),
a pacman-database query tool.  The embedding mirrors the final revision of
the source (`main.go`): the `Package` record, the package cache built by
`loadAllPackages`, the desc-file parser `parseDescFile`, the dependency-name
normalizer `cleanDependencyName`, the reverse-dependency computations
`findRequiredBy` and `buildReverseDependencyMap`, and the chain finder
`findInstallationChains` with its backwards DFS `dfsBackwards`.

Modelling conventions:
* The Go map `cache.packages` is represented by an association list
  `List (String × Package)`; the list order stands for the (arbitrary)
  iteration order of the map in one concrete run.  Map lookup is
  `lookupPkg`, map iteration walks the list.
* `strings.FieldsFunc(dep, sep)[0]` panics (index out of range) when the
  string has no separator-free run; `cleanDependencyName` therefore returns
  an `Option String`, with `none` standing for that panic.  Pipeline code
  that would panic in Go skips `none` entries; theorems whose claim
  presumes the Go code returns normally carry a `CleanCache` hypothesis
  restricting to caches on which no panic occurs.
* File-system access is abstracted: `parseDescFile` consumes the list of
  lines of a desc file, `loadAllPackages` consumes the list of desc-file
  contents that were successfully opened (unreadable entries are absent,
  matching the `continue` on read errors).
* `dfsBackwards` is general recursion in Go; here it takes explicit fuel.
  `findInstallationChains` supplies fuel `cache.packages.length + 2`,
  which the fuel-stabilization theorem for claim C4 proves sufficient.
-/

/-- The `Package` struct of the source: name, version, install reason,
raw dependency specifiers, and the computed required-by list. -/
structure Package where
  name : String
  version : String
  installReason : String
  dependencies : List String
  requiredBy : List String
deriving DecidableEq, Repr

/-- The install-reason string the source assigns by default (pacman
REASON absent or not `1`). -/
def explicitReason : String := "Explicitly installed"

/-- The install-reason string the source assigns when the REASON section
holds `1`. -/
def dependencyReason : String := "Installed as a dependency"

/-- The `PackageCache` struct: the Go map from package name to record,
represented as an association list in one run's iteration order. -/
structure PackageCache where
  packages : List (String × Package)
deriving DecidableEq, Repr

/-- Go map read `cache.packages[name]`. -/
def lookupPkg (cache : PackageCache) (name : String) : Option Package :=
  (cache.packages.find? (fun e => e.1 = name)).map (fun e => e.2)

/-- Iterating `for _, pkg := range cache.packages` yields the stored
records in the run's iteration order. -/
def cacheValues (cache : PackageCache) : List Package :=
  cache.packages.map (fun e => e.2)

/-- The separator predicate passed to `strings.FieldsFunc` in
`cleanDependencyName`: space, `<`, `>`, `=`. -/
def isSepChar (c : Char) : Bool :=
  c = ' ' || c = '<' || c = '>' || c = '='

/-- Accumulator version of `strings.FieldsFunc` on character lists:
splits into the maximal runs of non-separator characters, dropping
empty fields, as Go does. -/
def fieldsFuncAux : List Char → List Char → List (List Char)
  | [], acc => if acc = [] then [] else [acc.reverse]
  | c :: cs, acc =>
      if isSepChar c then
        if acc = [] then fieldsFuncAux cs [] else acc.reverse :: fieldsFuncAux cs []
      else fieldsFuncAux cs (c :: acc)

/-- `strings.FieldsFunc(s, isSepChar)`. -/
def fieldsFunc (s : String) : List String :=
  (fieldsFuncAux s.toList []).map (fun cs => String.mk cs)

/-- `cleanDependencyName` of the source: `strings.FieldsFunc(dep, sep)[0]`.
The Go expression panics when the fields slice is empty; `none` models
that panic. -/
def cleanDependencyName (dep : String) : Option String :=
  (fieldsFunc dep).head?

/-- A cache on which no call to `cleanDependencyName` panics: every stored
dependency specifier has at least one non-separator character. -/
def CleanCache (cache : PackageCache) : Prop :=
  ∀ pkg ∈ cacheValues cache, ∀ dep ∈ pkg.dependencies,
    (cleanDependencyName dep).isSome

instance (cache : PackageCache) : Decidable (CleanCache cache) := by
  unfold CleanCache; infer_instance

/-- `findRequiredBy` of the source: walk every cached record; a record
whose dependency list contains a specifier normalizing to `pkgName`
contributes its `Name` once (the Go loop breaks at the first match). -/
def findRequiredBy (pkgName : String) (cache : PackageCache) : List String :=
  (cacheValues cache).filterMap (fun pkg =>
    if pkg.dependencies.any (fun dep => cleanDependencyName dep = some pkgName)
    then some pkg.name else none)

/-- `buildReverseDependencyMap` of the source, represented by its lookup
function: entry `depName` collects `pkg.Name` once per dependency of
`pkg` normalizing to `depName`, in iteration order (duplicates kept,
exactly as the Go `append`s produce them). -/
def buildReverseDependencyMap (cache : PackageCache) : String → List String :=
  fun depName =>
    (cacheValues cache).flatMap (fun pkg =>
      (pkg.dependencies.filter
        (fun dep => cleanDependencyName dep = some depName)).map
        (fun _ => pkg.name))

/-- `dfsBackwards` of the source, with explicit fuel.  `prev` is the set
of packages already on the current path (the Go `visited` map holds
exactly these, marked on entry and cleared on backtrack); the Go `path`
argument equals `prev ++ [currentPkg]`.  At an explicitly installed
package the accumulated path is emitted; otherwise every dependent in the
reverse map is explored. -/
def dfsBackwards (cache : PackageCache) (reverseDeps : String → List String) :
    Nat → String → List String → List (List String)
  | 0, _, _ => []
  | fuel + 1, currentPkg, prev =>
      if currentPkg ∈ prev then []
      else
        let path := prev ++ [currentPkg]
        match lookupPkg cache currentPkg with
        | some pkg =>
            if pkg.installReason = explicitReason then [path]
            else (reverseDeps currentPkg).flatMap
              (fun d => dfsBackwards cache reverseDeps fuel d path)
        | none => (reverseDeps currentPkg).flatMap
              (fun d => dfsBackwards cache reverseDeps fuel d path)

/-- The fuel `findInstallationChains` hands to `dfsBackwards`; the
stabilization theorem shows any larger fuel gives the same result, which
is the termination content of the Go recursion. -/
def chainFuel (cache : PackageCache) : Nat := cache.packages.length + 2

/-- `findInstallationChains` with explicit fuel: build the reverse map,
run the backwards DFS from the target with empty visited set and initial
path `[target]`, then reverse every chain to root-first order. -/
def findInstallationChainsFuel (fuel : Nat) (targetPkg : String)
    (cache : PackageCache) : List (List String) :=
  let reverseDeps := buildReverseDependencyMap cache
  (dfsBackwards cache reverseDeps fuel targetPkg []).map List.reverse

/-- `findInstallationChains` of the source. -/
def findInstallationChains (targetPkg : String) (cache : PackageCache) :
    List (List String) :=
  findInstallationChainsFuel (chainFuel cache) targetPkg cache

/-- `strings.TrimSpace(line)`: drop leading and trailing whitespace. -/
def trimSpace (s : String) : String :=
  String.mk (((s.toList.dropWhile Char.isWhitespace).reverse.dropWhile
    Char.isWhitespace).reverse)

/-- The section-header test of the scanner loop:
`strings.HasPrefix(line, "%") && strings.HasSuffix(line, "%")`. -/
def isSectionHeader (line : String) : Bool :=
  line.toList.head? = some '%' && line.toList.getLast? = some '%'

/-- `strings.Trim(line, "%")`: drop leading and trailing `%` runs. -/
def trimPercent (s : String) : String :=
  String.mk (((s.toList.dropWhile (fun c => c = '%')).reverse.dropWhile
    (fun c => c = '%')).reverse)

/-- One step of the `parseDescFile` scanner loop: trim the line, switch
section on `%SECTION%` headers, skip blanks, otherwise record the line
under the current section. -/
def parseDescLine (st : String × Package) (raw : String) : String × Package :=
  let line := trimSpace raw
  let currentSection := st.1
  let pkg := st.2
  if isSectionHeader line then (trimPercent line, pkg)
  else if line = "" then st
  else if currentSection = "NAME" then (currentSection, { pkg with name := line })
  else if currentSection = "VERSION" then (currentSection, { pkg with version := line })
  else if currentSection = "REASON" then
    (currentSection,
      if line = "1" then { pkg with installReason := dependencyReason } else pkg)
  else if currentSection = "DEPENDS" then
    (currentSection, { pkg with dependencies := pkg.dependencies ++ [line] })
  else st

/-- `parseDescFile` of the source on the lines of a desc file: install
reason defaults to explicit, every other field starts empty. -/
def parseDescFile (lines : List String) : Package :=
  (lines.foldl parseDescLine
    ("", { name := "", version := "", installReason := explicitReason,
           dependencies := [], requiredBy := [] })).2

/-- Entry-list form of a Go map write: overwrite the existing entry for
`key`, else append a fresh one. -/
def insertEntries (l : List (String × Package)) (key : String)
    (pkg : Package) : List (String × Package) :=
  if l.any (fun e => e.1 = key) then
    l.map (fun e => if e.1 = key then (key, pkg) else e)
  else l ++ [(key, pkg)]

/-- Go map write `cache.packages[key] = pkg`. -/
def insertPkg (cache : PackageCache) (key : String) (pkg : Package) :
    PackageCache :=
  ⟨insertEntries cache.packages key pkg⟩

/-- One iteration of the `loadAllPackages` loop over a readable desc
file: parse it and store the record under its `Name` field (the source
performs no validity check on the name). -/
def loadStep (acc : PackageCache) (d : List String) : PackageCache :=
  let pkg := parseDescFile d
  insertPkg acc pkg.name pkg

/-- `loadAllPackages` of the source on the desc files that could be
read. -/
def loadAllPackages (descs : List (List String)) : PackageCache :=
  descs.foldl loadStep ⟨[]⟩

/-- Overwrite the record stored under `key` (models the in-place write
through the `*Package` pointer held by the map). -/
def setPkg (cache : PackageCache) (key : String) (pkg : Package) :
    PackageCache :=
  ⟨cache.packages.map (fun e => if e.1 = key then (key, pkg) else e)⟩

/-- `getPackageInfo` of the source: look the target up in the cache,
compute its reverse dependencies, and write them into the record's
`RequiredBy` field — a mutation of the cached record itself, since the
map stores a pointer.  Returns the (updated) record and the cache state
after the call; `none` models the not-found error. -/
def getPackageInfo (pkgName : String) (cache : PackageCache) :
    Option Package × PackageCache :=
  match lookupPkg cache pkgName with
  | none => (none, cache)
  | some pkg =>
      let updated := { pkg with requiredBy := findRequiredBy pkgName cache }
      (some updated, setPkg cache pkgName updated)

/-- The separator set as the specification words it: `<`, `>`, `=`, or
whitespace.  Differs from `isSepChar` in accepting every whitespace
character, not just the space. -/
def isSpecSeparator (c : Char) : Bool :=
  c = '<' || c = '>' || c = '=' || c.isWhitespace

/-- Dependency-name extraction as the specification words it: the
substring of the specifier up to, but not including, the first occurrence
of any of `<`, `>`, `=`, or whitespace.  Stated for comparison with the
source's `cleanDependencyName`. -/
def specCleanDependencyName (s : String) : String :=
  String.mk (s.toList.takeWhile (fun c => !(isSpecSeparator c)))

/-! ## Concrete fixtures

Small caches used by counterexamples and witnesses.  Each list is one
possible iteration order of the Go map. -/

/-- One explicitly installed package with no dependencies. -/
def cacheC1 : PackageCache :=
  ⟨[("A", ⟨"A", "1", explicitReason, [], []⟩)]⟩

/-- The scenario exactly as the specification states it: `A` explicit
with no dependencies, `B` a dependency depending on `A`, `C` a dependency
depending on `B`. -/
def cacheC2stated : PackageCache :=
  ⟨[("A", ⟨"A", "1", explicitReason, [], []⟩),
    ("B", ⟨"B", "1", dependencyReason, ["A"], []⟩),
    ("C", ⟨"C", "1", dependencyReason, ["B"], []⟩)]⟩

/-- The scenario with the dependency arrows pointing the way the chain
finder actually walks them: `A` explicit depends on `B`, `B` depends on
`C`, `C` is the dependency-installed target. -/
def cacheABC : PackageCache :=
  ⟨[("A", ⟨"A", "1", explicitReason, ["B"], []⟩),
    ("B", ⟨"B", "1", dependencyReason, ["C"], []⟩),
    ("C", ⟨"C", "1", dependencyReason, [], []⟩)]⟩

/-- Malformed cyclic metadata: `M` and `N` depend on each other and
neither is explicitly installed. -/
def cacheCycMN : PackageCache :=
  ⟨[("M", ⟨"M", "1", dependencyReason, ["N"], []⟩),
    ("N", ⟨"N", "1", dependencyReason, ["M"], []⟩)]⟩

/-- Two explicit packages `A1`, `A2` both depending on the
dependency-installed target `T`, in one map-iteration order. -/
def cacheC9a : PackageCache :=
  ⟨[("A1", ⟨"A1", "1", explicitReason, ["T"], []⟩),
    ("A2", ⟨"A2", "1", explicitReason, ["T"], []⟩),
    ("T", ⟨"T", "1", dependencyReason, [], []⟩)]⟩

/-- The same map content as `cacheC9a` in another iteration order. -/
def cacheC9b : PackageCache :=
  ⟨[("A2", ⟨"A2", "1", explicitReason, ["T"], []⟩),
    ("A1", ⟨"A1", "1", explicitReason, ["T"], []⟩),
    ("T", ⟨"T", "1", dependencyReason, [], []⟩)]⟩

/-- `B` depends on `A`, so querying `A` populates a non-empty
required-by list. -/
def cacheC7 : PackageCache :=
  ⟨[("A", ⟨"A", "1", explicitReason, [], []⟩),
    ("B", ⟨"B", "1", dependencyReason, ["A"], []⟩)]⟩

/-- One record whose single dependency carries a version constraint. -/
def cacheC8 : PackageCache :=
  ⟨[("B", ⟨"B", "2", dependencyReason, ["A>=1.0"], []⟩)]⟩

/-! ## Helper lemmas -/

theorem fieldsFuncAux_head?_of_acc_ne_nil (cs : List Char) :
    ∀ acc : List Char, acc ≠ [] →
      (fieldsFuncAux cs acc).head? =
        some (acc.reverse ++ cs.takeWhile (fun c => !isSepChar c)) := by
  induction cs with
  | nil =>
      intro acc h
      simp [fieldsFuncAux, h]
  | cons c cs ih =>
      intro acc h
      by_cases hs : isSepChar c
      · simp [fieldsFuncAux, hs, h, List.takeWhile_cons]
      · simp only [fieldsFuncAux, hs, Bool.false_eq_true, if_false]
        rw [ih (c :: acc) (by simp)]
        simp [List.takeWhile_cons, hs]

theorem fieldsFuncAux_head?_nil_acc (cs : List Char) :
    (fieldsFuncAux cs []).head? =
      if cs.dropWhile isSepChar = [] then none
      else some ((cs.dropWhile isSepChar).takeWhile (fun c => !isSepChar c)) := by
  induction cs with
  | nil => simp [fieldsFuncAux]
  | cons c cs ih =>
      by_cases hs : isSepChar c
      · simpa [fieldsFuncAux, hs, List.dropWhile_cons] using ih
      · rw [fieldsFuncAux]
        simp only [hs, Bool.false_eq_true, if_false]
        rw [fieldsFuncAux_head?_of_acc_ne_nil cs [c] (by simp)]
        simp [List.dropWhile_cons, hs, List.takeWhile_cons]

/-- Characterization of `cleanDependencyName`: drop the leading run of
separator characters; if nothing is left the Go indexing panics (`none`),
otherwise the result is the following maximal separator-free run. -/
theorem cleanDependencyName_eq (s : String) :
    cleanDependencyName s =
      if s.toList.dropWhile isSepChar = [] then none
      else some (String.mk
        ((s.toList.dropWhile isSepChar).takeWhile (fun c => !isSepChar c))) := by
  unfold cleanDependencyName fieldsFunc
  rw [List.head?_map, fieldsFuncAux_head?_nil_acc]
  by_cases h : s.toList.dropWhile isSepChar = []
  · rw [if_pos h, if_pos h]; rfl
  · rw [if_neg h, if_neg h]; rfl

theorem flatMap_congr_on {α β : Type} {l : List α} {f g : α → List β}
    (h : ∀ a ∈ l, f a = g a) : l.flatMap f = l.flatMap g := by
  induction l with
  | nil => rfl
  | cons a l ih =>
      simp only [List.flatMap_cons]
      rw [h a (List.mem_cons_self a l), ih (fun b hb => h b (List.mem_cons_of_mem a hb))]

/-- Every name stored in the reverse dependency map is the name of some
cached package. -/
theorem mem_buildReverseDependencyMap {cache : PackageCache} {x n : String}
    (h : n ∈ buildReverseDependencyMap cache x) :
    n ∈ (cacheValues cache).map Package.name := by
  simp only [buildReverseDependencyMap, List.mem_flatMap, List.mem_map] at h
  obtain ⟨pkg, hpkg, _, _, rfl⟩ := h
  exact List.mem_map.mpr ⟨pkg, hpkg, rfl⟩

/-- Every path the backwards DFS emits is duplicate-free: its entries are
exactly successive extensions of a duplicate-free visited list. -/
theorem dfsBackwards_nodup (cache : PackageCache)
    (reverseDeps : String → List String) :
    ∀ (fuel : Nat) (cur : String) (prev : List String), prev.Nodup →
      ∀ c ∈ dfsBackwards cache reverseDeps fuel cur prev, c.Nodup := by
  intro fuel
  induction fuel with
  | zero => intro cur prev _ c hc; simp [dfsBackwards] at hc
  | succ fuel ih =>
      intro cur prev hnd c hc
      rw [dfsBackwards] at hc
      by_cases hmem : cur ∈ prev
      · simp [hmem] at hc
      · simp only [if_neg hmem] at hc
        have hpath : (prev ++ [cur]).Nodup := by
          simp [List.nodup_append, hnd, hmem]
        split at hc
        · split at hc
          · rcases List.mem_singleton.mp hc with rfl
            exact hpath
          · obtain ⟨d, _, hcd⟩ := List.mem_flatMap.mp hc
            exact ih d (prev ++ [cur]) hpath c hcd
        · obtain ⟨d, _, hcd⟩ := List.mem_flatMap.mp hc
          exact ih d (prev ++ [cur]) hpath c hcd

/-- Fuel irrelevance for the backwards DFS: as long as the fuel budget
covers the number of names that can still be appended to the
duplicate-free visited list (all drawn from `S`), the result does not
depend on the exact fuel.  This is the termination argument for the Go
recursion: the visited list grows strictly along every recursive call. -/
theorem dfsBackwards_fuel_congr (cache : PackageCache)
    (reverseDeps : String → List String) (S : List String)
    (hS : ∀ x n, n ∈ reverseDeps x → n ∈ S) :
    ∀ (f g : Nat) (cur : String) (prev : List String),
      prev.Nodup → prev ⊆ S → cur ∈ S →
      S.length + 1 ≤ f + prev.length → S.length + 1 ≤ g + prev.length →
      dfsBackwards cache reverseDeps f cur prev =
        dfsBackwards cache reverseDeps g cur prev := by
  intro f
  induction f with
  | zero =>
      intro g cur prev hnd hsub _ hf _
      have hle : prev.length ≤ S.length := (hnd.subperm hsub).length_le
      omega
  | succ f ih =>
      intro g cur prev hnd hsub hcur hf hg
      cases g with
      | zero =>
          have hle : prev.length ≤ S.length := (hnd.subperm hsub).length_le
          omega
      | succ g =>
          rw [dfsBackwards, dfsBackwards]
          by_cases hmem : cur ∈ prev
          · simp [hmem]
          · simp only [if_neg hmem]
            have hpathnd : (prev ++ [cur]).Nodup := by
              simp [List.nodup_append, hnd, hmem]
            have hpathsub : prev ++ [cur] ⊆ S := by
              intro p hp
              rcases List.mem_append.mp hp with h | h
              · exact hsub h
              · rcases List.mem_singleton.mp h with rfl
                exact hcur
            have hrec : ∀ d ∈ reverseDeps cur,
                dfsBackwards cache reverseDeps f d (prev ++ [cur]) =
                  dfsBackwards cache reverseDeps g d (prev ++ [cur]) := by
              intro d hd
              exact ih g d (prev ++ [cur]) hpathnd hpathsub (hS cur d hd)
                (by simp; omega) (by simp; omega)
            cases hl : lookupPkg cache cur with
            | some pkg =>
                simp only [hl]
                by_cases hexp : pkg.installReason = explicitReason
                · simp [hexp]
                · simp only [if_neg hexp]
                  exact flatMap_congr_on hrec
            | none =>
                simp only [hl]
                exact flatMap_congr_on hrec

theorem findEntry_overwrite_ne (t : List (String × Package)) (key k : String)
    (pkg : Package) (h : k ≠ key) :
    (t.map (fun e => if e.1 = key then (key, pkg) else e)).find?
        (fun e => e.1 = k) =
      t.find? (fun e => e.1 = k) := by
  induction t with
  | nil => rfl
  | cons e t ih =>
      by_cases he : e.1 = key
      · rw [List.map_cons, if_pos he]
        have hek : ¬ (e.1 = k) := by
          rw [he]; exact fun hc => h hc.symm
        rw [List.find?_cons_of_neg _ (by simp [Ne.symm h]),
          List.find?_cons_of_neg _ (by simp [hek])]
        exact ih
      · rw [List.map_cons, if_neg he]
        by_cases hek : e.1 = k
        · rw [List.find?_cons_of_pos _ (by simp [hek]),
            List.find?_cons_of_pos _ (by simp [hek])]
        · rw [List.find?_cons_of_neg _ (by simp [hek]),
            List.find?_cons_of_neg _ (by simp [hek])]
          exact ih

theorem findEntry_overwrite_eq (t : List (String × Package)) (key : String)
    (pkg : Package) :
    (t.map (fun e => if e.1 = key then (key, pkg) else e)).find?
        (fun e => e.1 = key) =
      (t.find? (fun e => e.1 = key)).map (fun _ => (key, pkg)) := by
  induction t with
  | nil => rfl
  | cons e t ih =>
      by_cases he : e.1 = key
      · rw [List.map_cons, if_pos he]
        rw [List.find?_cons_of_pos _ (by simp),
          List.find?_cons_of_pos _ (by simp [he])]
        rfl
      · rw [List.map_cons, if_neg he]
        rw [List.find?_cons_of_neg _ (by simp [he]),
          List.find?_cons_of_neg _ (by simp [he])]
        exact ih

theorem lookupPkg_setPkg_ne (cache : PackageCache) (key k : String)
    (pkg : Package) (h : k ≠ key) :
    lookupPkg (setPkg cache key pkg) k = lookupPkg cache k := by
  simp only [lookupPkg, setPkg]
  rw [findEntry_overwrite_ne cache.packages key k pkg h]

theorem lookupPkg_setPkg_eq (cache : PackageCache) (key : String)
    (pkg : Package) :
    lookupPkg (setPkg cache key pkg) key =
      (lookupPkg cache key).map (fun _ => pkg) := by
  simp only [lookupPkg, setPkg]
  rw [findEntry_overwrite_eq cache.packages key pkg]
  cases List.find? (fun e => e.1 = key) cache.packages <;> rfl

/-- Inserting a record under its own name preserves the map invariant:
keys are pairwise distinct and every key is the `Name` field of the
record stored under it. -/
theorem insertEntries_keys (l : List (String × Package)) (pkg : Package)
    (hnd : (l.map Prod.fst).Nodup) (hkeys : ∀ e ∈ l, e.1 = e.2.name) :
    ((insertEntries l pkg.name pkg).map Prod.fst).Nodup ∧
      ∀ e ∈ insertEntries l pkg.name pkg, e.1 = e.2.name := by
  unfold insertEntries
  by_cases hany : l.any (fun e => e.1 = pkg.name) = true
  · rw [if_pos hany]
    have hfst : (l.map (fun e => if e.1 = pkg.name then (pkg.name, pkg) else e)).map
        Prod.fst = l.map Prod.fst := by
      rw [List.map_map]
      apply List.map_congr_left
      intro e _
      by_cases h : e.1 = pkg.name <;> simp [h]
    refine ⟨hfst ▸ hnd, ?_⟩
    intro e he
    obtain ⟨a, ha, rfl⟩ := List.mem_map.mp he
    by_cases h : a.1 = pkg.name
    · simp [h]
    · rw [if_neg h]
      exact hkeys a ha
  · rw [if_neg hany]
    have hnotmem : pkg.name ∉ l.map Prod.fst := by
      intro hc
      obtain ⟨a, ha, hfst⟩ := List.mem_map.mp hc
      exact hany (List.any_eq_true.mpr ⟨a, ha, by simp [hfst]⟩)
    constructor
    · rw [List.map_append]
      simp [List.nodup_append, hnd, hnotmem]
    · intro e he
      rcases List.mem_append.mp he with h | h
      · exact hkeys e h
      · rcases List.mem_singleton.mp h with rfl
        rfl

theorem loadFold_keys (descs : List (List String)) :
    ∀ c : PackageCache, (c.packages.map Prod.fst).Nodup →
      (∀ e ∈ c.packages, e.1 = e.2.name) →
      (((descs.foldl loadStep c).packages.map Prod.fst).Nodup ∧
        ∀ e ∈ (descs.foldl loadStep c).packages, e.1 = e.2.name) := by
  induction descs with
  | nil => intro c h1 h2; exact ⟨h1, h2⟩
  | cons d ds ih =>
      intro c h1 h2
      rw [List.foldl_cons]
      have hstep := insertEntries_keys c.packages (parseDescFile d) h1 h2
      exact ih (loadStep c d) hstep.1 hstep.2

theorem mem_findRequiredBy_iff (cache : PackageCache) (name x : String) :
    x ∈ findRequiredBy name cache ↔
      ∃ pkg ∈ cacheValues cache, pkg.name = x ∧
        ∃ dep ∈ pkg.dependencies, cleanDependencyName dep = some name := by
  simp only [findRequiredBy, List.mem_filterMap]
  constructor
  · rintro ⟨pkg, hpkg, hx⟩
    by_cases h : pkg.dependencies.any
        (fun dep => cleanDependencyName dep = some name) = true
    · rw [if_pos h] at hx
      obtain ⟨dep, hdep, hcl⟩ := List.any_eq_true.mp h
      exact ⟨pkg, hpkg, Option.some.inj hx, dep, hdep, of_decide_eq_true hcl⟩
    · rw [if_neg h] at hx
      exact absurd hx (by simp)
  · rintro ⟨pkg, hpkg, rfl, dep, hdep, hcl⟩
    refine ⟨pkg, hpkg, ?_⟩
    rw [if_pos (List.any_eq_true.mpr ⟨dep, hdep, decide_eq_true hcl⟩)]

theorem mem_buildReverseDependencyMap_iff (cache : PackageCache)
    (name x : String) :
    x ∈ buildReverseDependencyMap cache name ↔
      ∃ pkg ∈ cacheValues cache, pkg.name = x ∧
        ∃ dep ∈ pkg.dependencies, cleanDependencyName dep = some name := by
  simp only [buildReverseDependencyMap, List.mem_flatMap, List.mem_map,
    List.mem_filter]
  constructor
  · rintro ⟨pkg, hpkg, dep, ⟨hdep, hcl⟩, rfl⟩
    exact ⟨pkg, hpkg, rfl, dep, hdep, of_decide_eq_true hcl⟩
  · rintro ⟨pkg, hpkg, rfl, dep, hdep, hcl⟩
    exact ⟨pkg, hpkg, dep, ⟨hdep, decide_eq_true hcl⟩, rfl⟩

/-- Unfolding equation for `dfsBackwards` at positive fuel. -/
theorem dfsBackwards_succ (cache : PackageCache)
    (reverseDeps : String → List String) (fuel : Nat) (cur : String)
    (prev : List String) :
    dfsBackwards cache reverseDeps (fuel + 1) cur prev =
      if cur ∈ prev then []
      else
        match lookupPkg cache cur with
        | some pkg =>
            if pkg.installReason = explicitReason then [prev ++ [cur]]
            else (reverseDeps cur).flatMap
              (fun d => dfsBackwards cache reverseDeps fuel d (prev ++ [cur]))
        | none => (reverseDeps cur).flatMap
              (fun d => dfsBackwards cache reverseDeps fuel d (prev ++ [cur])) :=
  rfl

/-! ## Claim theorems -/

/-- Claim C1, counterexample: for the index holding exactly the
explicitly installed package `A`, `findInstallationChains` does not
return an empty collection — it returns the singleton chain `[A]`. -/
theorem c1_explicit_target_counterexample :
    findInstallationChains "A" cacheC1 ≠ [] := by decide

/-- Claim C1, amended: for every panic-free Package Index and every
target present in it with install-reason Explicit,
`findInstallationChains` returns exactly one chain, the one-element
chain consisting of the target itself (the DFS emits the trivial path at
its explicit root immediately). -/
theorem c1_explicit_target_amended :
    ∀ (cache : PackageCache) (target : String) (pkg : Package),
      CleanCache cache → lookupPkg cache target = some pkg →
      pkg.installReason = explicitReason →
      findInstallationChains target cache = [[target]] := by
  intro cache target pkg _ hl hexp
  unfold findInstallationChains findInstallationChainsFuel chainFuel
  show (dfsBackwards cache (buildReverseDependencyMap cache)
      (cache.packages.length + 1 + 1) target []).map List.reverse = [[target]]
  rw [dfsBackwards_succ]
  simp [hl, hexp]

/-- Claim C1, witness: instantiation of the amended theorem on the
concrete cache `cacheABC` with explicit target `A`. -/
theorem c1_explicit_target_witness :
    CleanCache cacheABC ∧
      lookupPkg cacheABC "A" = some ⟨"A", "1", explicitReason, ["B"], []⟩ ∧
      (⟨"A", "1", explicitReason, ["B"], []⟩ : Package).installReason =
        explicitReason ∧
      findInstallationChains "A" cacheABC = [["A"]] :=
  ⟨by decide, by decide, by decide,
    c1_explicit_target_amended cacheABC "A" ⟨"A", "1", explicitReason, ["B"], []⟩
      (by decide) (by decide) (by decide)⟩

/-- Claim C2, counterexample: on the index exactly as the claim states it
(`A` explicit with no dependencies, `B` a dependency depending on `A`,
`C` a dependency depending on `B`) the chain finder does not return
`[[A, B, C]]` — the reverse-dependency map has no dependents for `C`, so
no chain is found. -/
theorem c2_stated_scenario_counterexample :
    findInstallationChains "C" cacheC2stated ≠ [["A", "B", "C"]] := by decide

/-- Claim C2, amended: on the index as stated the chain finder returns
zero chains; the single chain `[A, B, C]` is returned when the dependency
arrows are reversed (`A` explicit depends on `B`, `B` depends on `C`,
target `C`), which is the configuration the walk over reverse dependency
edges actually rewards. -/
theorem c2_scenario_amended :
    findInstallationChains "C" cacheC2stated = [] ∧
      findInstallationChains "C" cacheABC = [["A", "B", "C"]] := by decide

/-- Claim C3: every chain returned by `findInstallationChains` is a
simple path — no package name occurs twice in one chain — for every
cache and target, cyclic reverse-dependency maps included. -/
theorem c3_chains_are_simple_paths :
    ∀ (cache : PackageCache) (target : String) (chain : List String),
      chain ∈ findInstallationChains target cache → chain.Nodup := by
  intro cache target chain hc
  unfold findInstallationChains findInstallationChainsFuel at hc
  obtain ⟨c, hcmem, rfl⟩ := List.mem_map.mp hc
  exact List.nodup_reverse.mpr
    (dfsBackwards_nodup cache (buildReverseDependencyMap cache)
      (chainFuel cache) target [] List.nodup_nil c hcmem)

/-- Claim C3, witness: the concrete chain `[A, B, C]` returned on
`cacheABC` is duplicate-free. -/
theorem c3_chains_are_simple_paths_witness :
    ["A", "B", "C"] ∈ findInstallationChains "C" cacheABC ∧
      (["A", "B", "C"] : List String).Nodup :=
  ⟨by decide, c3_chains_are_simple_paths cacheABC "C" ["A", "B", "C"] (by decide)⟩

/-- Claim C4: the chain finder terminates on every finite Package Index —
formally, the DFS result is already stable at the fuel
`findInstallationChains` supplies, so any larger budget computes the same
chains — and on the cyclic two-package index (`M` and `N` depending on
each other, neither explicit) it returns zero chains. -/
theorem c4_terminates_and_cycle_safe :
    (∀ (cache : PackageCache) (target : String) (fuel : Nat),
      chainFuel cache ≤ fuel →
      findInstallationChainsFuel fuel target cache =
        findInstallationChains target cache) ∧
    findInstallationChains "M" cacheCycMN = [] := by
  constructor
  · intro cache target fuel hfuel
    unfold findInstallationChains findInstallationChainsFuel
    show (dfsBackwards cache (buildReverseDependencyMap cache) fuel
        target []).map List.reverse =
      (dfsBackwards cache (buildReverseDependencyMap cache) (chainFuel cache)
        target []).map List.reverse
    congr 1
    apply dfsBackwards_fuel_congr cache (buildReverseDependencyMap cache)
      (target :: (cacheValues cache).map Package.name)
    · intro x n hn
      exact List.mem_cons_of_mem _ (mem_buildReverseDependencyMap hn)
    · exact List.nodup_nil
    · exact List.nil_subset _
    · exact List.mem_cons_self _ _
    · have hlen : ((cacheValues cache).map Package.name).length =
          cache.packages.length := by
        simp [cacheValues]
      simp only [List.length_cons, List.length_nil]
      unfold chainFuel at hfuel
      omega
    · have hlen : ((cacheValues cache).map Package.name).length =
          cache.packages.length := by
        simp [cacheValues]
      simp only [List.length_cons, List.length_nil]
      unfold chainFuel
      omega
  · decide

/-- Claim C4, witness: on `cacheABC` fuel `10` exceeds the supplied
budget and computes the same chains. -/
theorem c4_terminates_witness :
    chainFuel cacheABC ≤ 10 ∧
      findInstallationChainsFuel 10 "C" cacheABC =
        findInstallationChains "C" cacheABC :=
  ⟨by decide, c4_terminates_and_cycle_safe.1 cacheABC "C" 10 (by decide)⟩

/-- Claim C5, counterexample: `cleanDependencyName` is not the substring
up to the first separator occurrence.  On `"=libfoo"` that substring is
empty but the source returns `"libfoo"` (Go `FieldsFunc` skips leading
separators), and on `"lib\tfoo"` the claim's whitespace rule would cut at
the tab but the source splits only on the space character. -/
theorem c5_normalization_counterexample :
    cleanDependencyName "=libfoo" ≠ some (specCleanDependencyName "=libfoo") ∧
      cleanDependencyName "lib\tfoo" ≠
        some (specCleanDependencyName "lib\tfoo") := by decide

/-- Claim C5, amended: `cleanDependencyName` drops the leading run of
separator characters (space, `<`, `>`, `=` — not general whitespace) and
returns the following maximal separator-free run, failing (the Go index
panic) when the specifier has no non-separator character; in particular
all four specifiers of the claim normalize to `libfoo`. -/
theorem c5_normalization_amended :
    (∀ s : String,
      cleanDependencyName s =
        if s.toList.dropWhile isSepChar = [] then none
        else some (String.mk ((s.toList.dropWhile isSepChar).takeWhile
          (fun c => !isSepChar c)))) ∧
    cleanDependencyName "libfoo>=1.0" = some "libfoo" ∧
    cleanDependencyName "libfoo<2.0" = some "libfoo" ∧
    cleanDependencyName "libfoo=1.5" = some "libfoo" ∧
    cleanDependencyName "libfoo" = some "libfoo" :=
  ⟨cleanDependencyName_eq, by decide, by decide, by decide, by decide⟩

/-- Claim C6, counterexample: a desc file with no NAME section parses to
a record with empty name, and `loadAllPackages` stores it in the index
under the empty-string key instead of excluding it. -/
theorem c6_missing_name_counterexample :
    ¬ (∀ e ∈ (loadAllPackages [["%VERSION%", "1.0"]]).packages,
        e.1 ≠ "" ∧ e.1 = e.2.name) := by decide

/-- Claim C6, amended: after `loadAllPackages` every key of the index
equals the `Name` field of the record it maps to and the keys are
pairwise distinct, but a record whose metadata contains no name is not
excluded — it is stored under the empty-string key. -/
theorem c6_index_keys_amended :
    ∀ descs : List (List String),
      ((loadAllPackages descs).packages.map Prod.fst).Nodup ∧
        ∀ e ∈ (loadAllPackages descs).packages, e.1 = e.2.name := by
  intro descs
  exact loadFold_keys descs ⟨[]⟩ (by simp) (by simp)

/-- Claim C6, witness: instantiation on a one-package store whose desc
file names the package `foo`. -/
theorem c6_index_keys_witness :
    ((loadAllPackages [["%NAME%", "foo"]]).packages.map Prod.fst).Nodup ∧
      ("foo", parseDescFile ["%NAME%", "foo"]).1 =
        ("foo", parseDescFile ["%NAME%", "foo"]).2.name :=
  ⟨(c6_index_keys_amended [["%NAME%", "foo"]]).1,
    (c6_index_keys_amended [["%NAME%", "foo"]]).2
      ("foo", parseDescFile ["%NAME%", "foo"]) (by decide)⟩

/-- Claim C7, counterexample: `getPackageInfo` is not read-only on the
Package Index — on `cacheC7` (where `B` depends on `A`) querying `A`
overwrites the `RequiredBy` field of the cached record for `A`, so the
record observed afterwards differs from the one stored at build time. -/
theorem c7_immutability_counterexample :
    lookupPkg (getPackageInfo "A" cacheC7).2 "A" ≠ lookupPkg cacheC7 "A" := by
  decide

/-- Claim C7, amended: `findInstallationChains` and `findRequiredBy` are
pure queries, but `getPackageInfo N` writes through the stored pointer:
afterwards every record other than `N` is unchanged, and `N`'s record is
unchanged except that its `RequiredBy` field now holds
`findRequiredBy N`. -/
theorem c7_frame_amended :
    ∀ (cache : PackageCache) (name : String),
      (∀ k, k ≠ name →
        lookupPkg (getPackageInfo name cache).2 k = lookupPkg cache k) ∧
      lookupPkg (getPackageInfo name cache).2 name =
        (lookupPkg cache name).map
          (fun pkg => { pkg with requiredBy := findRequiredBy name cache }) := by
  intro cache name
  unfold getPackageInfo
  cases hl : lookupPkg cache name with
  | none => simp [hl]
  | some pkg =>
      constructor
      · intro k hk
        simp only [hl]
        exact lookupPkg_setPkg_ne cache name k
          { pkg with requiredBy := findRequiredBy name cache } hk
      · simp only [hl]
        rw [lookupPkg_setPkg_eq, hl]
        rfl

/-- Claim C7, witness: instantiation on `cacheC7` with target `A` and
untouched package `B`. -/
theorem c7_frame_witness :
    lookupPkg (getPackageInfo "A" cacheC7).2 "B" = lookupPkg cacheC7 "B" ∧
      lookupPkg (getPackageInfo "A" cacheC7).2 "A" =
        (lookupPkg cacheC7 "A").map
          (fun pkg => { pkg with requiredBy := findRequiredBy "A" cacheC7 }) :=
  ⟨(c7_frame_amended cacheC7 "A").1 "B" (by decide),
    (c7_frame_amended cacheC7 "A").2⟩

/-- Claim C8: for every panic-free cache, a package name belongs to
`findRequiredBy N` exactly when it belongs to the entry stored under `N`
in the reverse dependency map — both collect precisely the packages one
of whose normalized dependencies equals `N`. -/
theorem c8_requiredBy_matches_reverse_map :
    ∀ (cache : PackageCache) (name x : String), CleanCache cache →
      (x ∈ findRequiredBy name cache ↔
        x ∈ buildReverseDependencyMap cache name) := by
  intro cache name x _
  rw [mem_findRequiredBy_iff, mem_buildReverseDependencyMap_iff]

/-- Claim C8, witness: instantiation on `cacheC8`, where `B` declares
the constrained dependency `A>=1.0` and so appears on both sides for the
name `A`. -/
theorem c8_requiredBy_matches_reverse_map_witness :
    CleanCache cacheC8 ∧
      ("B" ∈ findRequiredBy "A" cacheC8 ↔
        "B" ∈ buildReverseDependencyMap cacheC8 "A") :=
  ⟨by decide, c8_requiredBy_matches_reverse_map cacheC8 "A" "B" (by decide)⟩

/-- Claim C9: two runs over the same Package Index content can return the
same chains in different orders.  `cacheC9a` and `cacheC9b` hold the same
map entries (a permutation — Go map iteration order is unspecified and
varies between runs), yet the chain lists for target `T` differ. -/
theorem c9_chain_order_depends_on_map_iteration :
    cacheC9a.packages.Perm cacheC9b.packages ∧
      findInstallationChains "T" cacheC9a ≠
        findInstallationChains "T" cacheC9b := by
  constructor
  · decide
  · decide

/-- Claim C10, counterexample: `cleanDependencyName` is not total — on
the empty specifier, and on a specifier consisting only of separator
characters, `strings.FieldsFunc` returns no fields and the `[0]` index
panics (modelled by `none`). -/
theorem c10_clean_total_counterexample :
    (cleanDependencyName "").isSome = false ∧
      (cleanDependencyName ">=").isSome = false := by decide

/-- Claim C10, amended: `cleanDependencyName` returns a result exactly
when the specifier contains at least one character other than space,
`<`, `>`, `=`; on all-separator specifiers (the empty string included)
the index into the fields slice is out of range, so
`buildReverseDependencyMap` and `findRequiredBy` are panic-free only on
caches whose dependency entries all satisfy this condition. -/
theorem c10_clean_totality_amended :
    ∀ s : String, (cleanDependencyName s).isSome ↔
      s.toList.any (fun c => !isSepChar c) := by
  intro s
  rw [cleanDependencyName_eq]
  by_cases h : s.toList.dropWhile isSepChar = []
  · rw [if_pos h]
    rw [List.dropWhile_eq_nil_iff] at h
    simp only [Option.isSome_none, Bool.false_eq_true, false_iff,
      List.any_eq_true, not_exists]
    rintro c ⟨hc, hcs⟩
    rw [h c hc] at hcs
    simp at hcs
  · rw [if_neg h]
    rw [List.dropWhile_eq_nil_iff] at h
    push_neg at h
    obtain ⟨c, hc, hcs⟩ := h
    simp only [Option.isSome_some, true_iff, List.any_eq_true]
    exact ⟨c, hc, by simp [hcs]⟩
